import Mathlib

/-!
Verification of the mesa tutorial models: a shallow embedding of the two
simulation programs (`boltzmann.py`, the wealth-exchange model, and
`bvm/bvm.py`, the binary-voter opinion model) together with proofs about
their behaviour.

Conventions of the embedding:
* Agents are identified by their `unique_id`, which equals their position in
  the scheduler's agent list (both programs add agents in id order).
* Python floats for wealth are modelled by `ℚ`.
* The scheduler's per-tick random permutation and every per-agent random draw
  (trade-partner choice via the model's own generator in `boltzmann.py`;
  initial-opinion draw and neighbour choice via the ambient global numpy
  generator in `bvm.py`; candidate-graph generation via the ambient networkx
  generator) are explicit parameters: a run is a function of those streams.
* Fallible Python arithmetic (division that can raise `ZeroDivisionError`)
  is modelled with `Option`: `none` is the raised exception.
-/

/-- Binary opinion values, embedding `Opinion = Enum('Opinion', 'RED BLUE')`. -/
inductive Opinion where
  | RED : Opinion
  | BLUE : Opinion
deriving DecidableEq

/-- Embedding of `MoneyAgent.give_money` acting on the wealth vector `ws`
(indexed by agent id).  Agent `i` computes `to_give = max(self.wealth, 1)`,
adds it to agent `j`'s wealth and then subtracts it from its own, exactly in
that order (so a self-pick `j = i` adds and then removes the same amount). -/
def give_money (ws : List ℚ) (i j : ℕ) : List ℚ :=
  let to_give := max (ws.getD i 0) 1
  let ws1 := ws.set j (ws.getD j 0 + to_give)
  ws1.set i (ws1.getD i 0 - to_give)

/-- Embedding of `MoneyAgent.step` for agent `i`: apply interest
(`wealth *= (1 + int_rate)`), then `give_money` to the randomly chosen
`partner` provided `wealth > 0`, then add the flat `ubi`. -/
def MoneyAgent.step (int_rate ubi : ℚ) (ws : List ℚ) (i : ℕ) (partner : ℕ) :
    List ℚ :=
  let ws1 := ws.set i (ws.getD i 0 * (1 + int_rate))
  let ws2 := if 0 < ws1.getD i 0 then give_money ws1 i partner else ws1
  ws2.set i (ws2.getD i 0 + ubi)

/-- Embedding of `RandomActivation.step` for the wealth model: activate the
agents in the order given by the scheduler's random permutation `order`,
where `picks i` is the trade partner drawn by agent `i` from the model's
random generator. -/
def scheduleStepMM (int_rate ubi : ℚ) (order : List ℕ) (picks : ℕ → ℕ)
    (ws : List ℚ) : List ℚ :=
  order.foldl (fun acc i => MoneyAgent.step int_rate ubi acc i (picks i)) ws

/-- State of a `MoneyModel` from `boltzmann.py`: agent count, the two global
parameters, the wealth vector (position = `unique_id`), the step counter, the
`running` flag and the two tables accumulated by the `DataCollector`
(the per-tick Gini model reports and the per-tick agent-wealth rows). -/
structure MoneyModel where
  num_agents : ℕ
  int_rate : ℚ
  ubi : ℚ
  wealths : List ℚ
  num_steps : ℕ
  running : Bool
  giniRows : List (Option ℚ)
  agentRows : List (List ℚ)
deriving DecidableEq

/-- Embedding of `compute_gini`: sort the wealths ascending, let `N` be
`model.num_agents`, and return `1 + 1/N - 2*B` with
`B = (Σ_i w[i]*(N-i)) / (N*Σw)`.  The Python division raises
`ZeroDivisionError` when `N*sum(w) = 0` (there is no guard in the source);
that exception is modelled as `none`. -/
def compute_gini (m : MoneyModel) : Option ℚ :=
  let w := List.insertionSort (fun a b => a ≤ b) m.wealths
  let N : ℚ := m.num_agents
  let den := N * w.sum
  if den = 0 then none
  else some (1 + 1 / N -
    2 * ((∑ i in Finset.range w.length, w.getD i 0 * (N - (i : ℚ))) / den))

/-- Embedding of `MoneyModel.__init__(N, MoneyAgent, int_rate, ubi)`: `N`
agents with wealth `1` each, step counter `0`, empty collector tables and
`running = True`. -/
def MoneyModel.init (N : ℕ) (int_rate ubi : ℚ) : MoneyModel :=
  { num_agents := N
    int_rate := int_rate
    ubi := ubi
    wealths := List.replicate N 1
    num_steps := 0
    running := true
    giniRows := []
    agentRows := [] }

/-- Embedding of `MoneyModel.step`: increment `num_steps`, collect (append one
Gini row and one agent-wealth row for the current state), then run the
scheduler.  There is no check of `running` anywhere in this method. -/
def MoneyModel.step (order : List ℕ) (picks : ℕ → ℕ) (m : MoneyModel) :
    MoneyModel :=
  let m1 := { m with num_steps := m.num_steps + 1 }
  let m2 := { m1 with
    giniRows := m1.giniRows ++ [compute_gini m1]
    agentRows := m1.agentRows ++ [m1.wealths] }
  { m2 with
    wealths := scheduleStepMM m2.int_rate m2.ubi order picks m2.wealths }

/-- Embedding of `MoneyModel.run(n)`: call `step` exactly `n` times
(`for _ in range(num_steps): self.step()`); `rnd k` supplies tick `k`'s
scheduler permutation and partner draws.  The loop has no early exit. -/
def MoneyModel.run (rnd : ℕ → List ℕ × (ℕ → ℕ)) : ℕ → MoneyModel → MoneyModel
  | 0, m => m
  | n + 1, m =>
      MoneyModel.run (fun k => rnd (k + 1)) n
        (MoneyModel.step (rnd 0).1 (rnd 0).2 m)

/-- Bounded-depth reachability in the adjacency relation `adj` restricted to
nodes `< N`: `reachB N adj fuel i j` holds when a path of length at most
`fuel` through nodes `< N` joins `i` to `j`. -/
def reachB (N : ℕ) (adj : ℕ → ℕ → Bool) : ℕ → ℕ → ℕ → Bool
  | 0, i, j => i == j
  | fuel + 1, i, j =>
      i == j || (List.range N).any fun m => adj i m && reachB N adj fuel m j

/-- Embedding of `networkx.is_connected` on a graph with node set
`{0, …, N-1}` and adjacency `adj`: every node reaches every node (paths of
length `≤ N` suffice on `N` nodes). -/
def isConnected (N : ℕ) (adj : ℕ → ℕ → Bool) : Bool :=
  (List.range N).all fun i => (List.range N).all fun j => reachB N adj N i j

/-- Embedding of the opinion part of `VoterAgent.__init__`: a supplied
(truthy) opinion is taken as is, otherwise the ambient
`np.random.choice([RED, BLUE])` draw is used. -/
def VoterAgent.initOpinion (opinion : Option Opinion) (draw : Opinion) :
    Opinion :=
  match opinion with
  | some o => o
  | none => draw

/-- Embedding of `VoterAgent.step` for agent `i` on the opinion vector `ops`:
look up `i`'s neighbours in the contact graph; with no neighbours do nothing;
otherwise take the neighbour selected by the ambient numpy draw (`pick`
indexes into the neighbour list) and copy its opinion iff it differs. -/
def VoterAgent.step (N : ℕ) (adj : ℕ → ℕ → Bool) (ops : List Opinion)
    (i : ℕ) (pick : ℕ) : List Opinion :=
  let neis := (List.range N).filter fun m => adj i m
  if neis.length = 0 then ops
  else
    let nei := neis.getD (pick % neis.length) 0
    let neiOp := ops.getD nei Opinion.RED
    if ops.getD i Opinion.RED ≠ neiOp then ops.set i neiOp else ops

/-- Embedding of `RandomActivation.step` for the opinion model: activate the
agents in the random order `order`; `picks i` is agent `i`'s neighbour draw. -/
def scheduleStepSW (N : ℕ) (adj : ℕ → ℕ → Bool) (order : List ℕ)
    (picks : ℕ → ℕ) (ops : List Opinion) : List Opinion :=
  order.foldl (fun acc i => VoterAgent.step N adj acc i (picks i)) ops

/-- Embedding of `frac_with_opinion`: fraction of agents holding opinion
`o`. -/
def frac_with_opinion (ops : List Opinion) (o : Opinion) : ℚ :=
  ((ops.countP fun a => a == o : ℕ) : ℚ) / (ops.length : ℚ)

/-- State of a `SocialWorld` from `bvm/bvm.py`: agent count, edge density
parameter, the accepted contact graph, the opinion vector
(position = `unique_id`), step counter, `running` flag and the collected
`FracRed` model reports. -/
structure SocialWorld where
  num_agents : ℕ
  p : ℚ
  G : ℕ → ℕ → Bool
  opinions : List Opinion
  num_steps : ℕ
  running : Bool
  fracRedRows : List ℚ

/-- Embedding of the convergence test in `SocialWorld.step`:
`all([a.opinion == agents[0].opinion for a in agents[1:]])`. -/
def converged (ops : List Opinion) : Bool :=
  (ops.drop 1).all fun o => o == ops.getD 0 Opinion.RED

/-- Embedding of `SocialWorld.__init__(N, p)`.  The ambient networkx
generator's stream of Erdős–Rényi candidate graphs is `gs`; the constructor
keeps regenerating until `nx.is_connected` holds, i.e. it binds the first
connected candidate (`h` says one exists, otherwise the Python loop never
terminates).  Each agent `i` is then created with no supplied opinion, so its
opinion is the ambient numpy draw `draws i`. -/
def SocialWorld.init (N : ℕ) (p : ℚ) (gs : ℕ → ℕ → ℕ → Bool)
    (h : ∃ k, isConnected N (gs k) = true) (draws : ℕ → Opinion) :
    SocialWorld :=
  { num_agents := N
    p := p
    G := gs (Nat.find h)
    opinions := (List.range N).map fun i => VoterAgent.initOpinion none (draws i)
    num_steps := 0
    running := true
    fracRedRows := [] }

/-- Embedding of `SocialWorld.step`: return immediately when `running` is
false; otherwise test convergence and set `running := false` on unanimity
(falling through — the source has no `return` there), then increment the
step counter, collect the `FracRed` row, and run the scheduler. -/
def SocialWorld.step (order : List ℕ) (picks : ℕ → ℕ) (s : SocialWorld) :
    SocialWorld :=
  if s.running = false then s
  else
    let s1 := if converged s.opinions then { s with running := false } else s
    let s2 := { s1 with num_steps := s1.num_steps + 1 }
    let s3 := { s2 with
      fracRedRows :=
        s2.fracRedRows ++ [frac_with_opinion s2.opinions Opinion.RED] }
    { s3 with
      opinions := scheduleStepSW s3.num_agents s3.G order picks s3.opinions }

/-- Embedding of `SocialWorld.run(n)`: call `step` exactly `n` times; `rnd k`
supplies tick `k`'s scheduler permutation and neighbour draws.  The loop
itself has no early exit; early stopping happens only inside `step`. -/
def SocialWorld.run (rnd : ℕ → List ℕ × (ℕ → ℕ)) :
    ℕ → SocialWorld → SocialWorld
  | 0, s => s
  | n + 1, s =>
      SocialWorld.run (fun k => rnd (k + 1)) n
        (SocialWorld.step (rnd 0).1 (rnd 0).2 s)

example : give_money [1, 1] 0 1 = [0, 2] := by norm_num [give_money]
example : give_money [1, 1] 0 0 = [1, 1] := by norm_num [give_money]
example : compute_gini (MoneyModel.init 2 0 0) = some 0 := by
  norm_num [compute_gini, MoneyModel.init, List.insertionSort,
    List.orderedInsert, Finset.sum_range_succ]
example : isConnected 2 (fun i j => (i == 0 && j == 1) || (i == 1 && j == 0)) = true := by decide
example : isConnected 2 (fun _ _ => false) = false := by decide

/-- Concrete two-node path graph (the only connected graph on nodes 0,1). -/
def adj2 : ℕ → ℕ → Bool :=
  fun i j => (i == 0 && j == 1) || (i == 1 && j == 0)

/-- Constant candidate-graph stream whose every candidate is `adj2`. -/
def gs2 : ℕ → ℕ → ℕ → Bool := fun _ => adj2

/-- Candidate-graph stream whose first `B + 1` candidates are the edgeless
(disconnected) graph and whose later candidates are `adj2`. -/
def gsDelayed (B : ℕ) : ℕ → ℕ → ℕ → Bool :=
  fun k => if k ≤ B then (fun _ _ => false) else adj2

/-- Wealth-model state whose two agents hold wealths `1` and `-1`
(total wealth zero). -/
def mZero : MoneyModel :=
  { MoneyModel.init 2 0 0 with wealths := [1, -1] }

/-- Freshly built three-agent wealth model whose `running` flag has been set
to `False` (the source comment: could set this to stop prematurely). -/
def mmStopped : MoneyModel :=
  { MoneyModel.init 3 0 0 with running := false }

/-- An opinion-model state whose `running` flag is `False`. -/
def swStopped : SocialWorld :=
  { num_agents := 2
    p := 1 / 2
    G := adj2
    opinions := [Opinion.RED, Opinion.BLUE]
    num_steps := 5
    running := false
    fracRedRows := [] }

/-- An ambient numpy draw stream returning `RED` then `BLUE`. -/
def drawsRB : ℕ → Opinion :=
  fun i => if i == 0 then Opinion.RED else Opinion.BLUE

theorem getD_set_ne {α : Type*} (l : List α) {i j : ℕ} (hij : i ≠ j)
    (a d : α) : (l.set i a).getD j d = l.getD j d := by
  rcases Nat.lt_or_ge j l.length with hj | hj
  · rw [List.getD_eq_getElem _ _ (by simpa using hj),
      List.getD_eq_getElem _ _ hj]
    exact List.getElem_set_of_ne hij a (by simpa using hj)
  · rw [List.getD_eq_default _ _ (by simpa using hj),
      List.getD_eq_default _ _ hj]

theorem sum_set_of_lt (l : List ℚ) (i : ℕ) (a : ℚ) (h : i < l.length) :
    (l.set i a).sum = l.sum - l.getD i 0 + a := by
  induction l generalizing i with
  | nil => simp at h
  | cons b t ih =>
    cases i with
    | zero =>
      simp only [List.set_cons_zero, List.sum_cons, List.getD_cons_zero]
      ring
    | succ k =>
      have hk : k < t.length := by simpa using h
      simp only [List.set_cons_succ, List.sum_cons, List.getD_cons_succ,
        ih k hk]
      ring

theorem set_getD_self {α : Type*} (l : List α) (i : ℕ) (d : α)
    (h : i < l.length) : l.set i (l.getD i d) = l := by
  induction l generalizing i with
  | nil => simp at h
  | cons b t ih =>
    cases i with
    | zero => simp
    | succ k =>
      have hk : k < t.length := by simpa using h
      simp only [List.set_cons_succ, List.getD_cons_succ]
      rw [ih k hk]

theorem sum_range_getD (l : List ℚ) :
    ∑ i in Finset.range l.length, l.getD i 0 = l.sum := by
  induction l with
  | nil => simp
  | cons b t ih =>
    rw [List.length_cons, Finset.sum_range_succ']
    simp only [List.getD_cons_succ, List.getD_cons_zero]
    rw [ih, List.sum_cons, add_comm]

theorem sorted_getD_mono {w : List ℚ}
    (hw : List.Sorted (fun a b : ℚ => a ≤ b) w) {i j : ℕ} (hij : i ≤ j)
    (hj : j < w.length) : w.getD i 0 ≤ w.getD j 0 := by
  have hi : i < w.length := lt_of_le_of_lt hij hj
  rw [List.getD_eq_getElem _ _ hi, List.getD_eq_getElem _ _ hj]
  exact List.Sorted.rel_get_of_le hw
    (show (⟨i, hi⟩ : Fin w.length) ≤ ⟨j, hj⟩ from hij)

theorem length_give_money (ws : List ℚ) (i j : ℕ) :
    (give_money ws i j).length = ws.length := by
  simp [give_money]

theorem sum_give_money (ws : List ℚ) {i j : ℕ} (hi : i < ws.length)
    (hj : j < ws.length) : (give_money ws i j).sum = ws.sum := by
  simp only [give_money]
  rw [sum_set_of_lt _ i _ (by simpa using hi), sum_set_of_lt ws j _ hj]
  ring

theorem length_moneyAgent_step (r u : ℚ) (ws : List ℚ) (i p : ℕ) :
    (MoneyAgent.step r u ws i p).length = ws.length := by
  simp only [MoneyAgent.step]
  split <;> simp [give_money]

theorem sum_moneyAgent_step_zero (ws : List ℚ) {i p : ℕ} (hi : i < ws.length)
    (hp : p < ws.length) : (MoneyAgent.step 0 0 ws i p).sum = ws.sum := by
  simp only [MoneyAgent.step]
  rw [show ws.getD i 0 * (1 + 0) = ws.getD i 0 by ring,
    set_getD_self ws i 0 hi]
  by_cases h : 0 < ws.getD i 0
  · rw [if_pos h]
    have hl : i < (give_money ws i p).length := by
      rw [length_give_money]; exact hi
    rw [show (give_money ws i p).getD i 0 + 0 = (give_money ws i p).getD i 0
        by ring,
      set_getD_self _ i 0 hl, sum_give_money ws hi hp]
  · rw [if_neg h,
      show ws.getD i 0 + 0 = ws.getD i 0 by ring, set_getD_self ws i 0 hi]

theorem length_scheduleStepMM (r u : ℚ) (order : List ℕ) (picks : ℕ → ℕ)
    (ws : List ℚ) :
    (scheduleStepMM r u order picks ws).length = ws.length := by
  induction order generalizing ws with
  | nil => rfl
  | cons a rest ih =>
    simp only [scheduleStepMM, List.foldl_cons] at ih ⊢
    rw [ih, length_moneyAgent_step]

theorem sum_scheduleStepMM_zero (order : List ℕ) (picks : ℕ → ℕ)
    (ws : List ℚ) (hord : ∀ a ∈ order, a < ws.length)
    (hpk : ∀ a ∈ order, picks a < ws.length) :
    (scheduleStepMM 0 0 order picks ws).sum = ws.sum := by
  induction order generalizing ws with
  | nil => rfl
  | cons a rest ih =>
    simp only [scheduleStepMM, List.foldl_cons] at ih ⊢
    have ha : a < ws.length := hord a (List.mem_cons_self a rest)
    have hpa : picks a < ws.length := hpk a (List.mem_cons_self a rest)
    have hlen : (MoneyAgent.step 0 0 ws a (picks a)).length = ws.length :=
      length_moneyAgent_step 0 0 ws a (picks a)
    rw [ih _
      (fun b hb => hlen ▸ hord b (List.mem_cons_of_mem a hb))
      (fun b hb => hlen ▸ hpk b (List.mem_cons_of_mem a hb)),
      sum_moneyAgent_step_zero ws ha hpa]

theorem moneyModel_step_num_steps (order : List ℕ) (picks : ℕ → ℕ)
    (m : MoneyModel) :
    (MoneyModel.step order picks m).num_steps = m.num_steps + 1 := rfl

theorem moneyModel_step_wealths (order : List ℕ) (picks : ℕ → ℕ)
    (m : MoneyModel) :
    (MoneyModel.step order picks m).wealths =
      scheduleStepMM m.int_rate m.ubi order picks m.wealths := rfl

theorem moneyModel_run_num_steps (rnd : ℕ → List ℕ × (ℕ → ℕ)) (n : ℕ)
    (m : MoneyModel) :
    (MoneyModel.run rnd n m).num_steps = m.num_steps + n := by
  induction n generalizing rnd m with
  | zero => rfl
  | succ k ih =>
    show (MoneyModel.run _ k (MoneyModel.step (rnd 0).1 (rnd 0).2 m)).num_steps
      = m.num_steps + (k + 1)
    rw [ih, moneyModel_step_num_steps]
    omega

theorem socialWorld_step_not_running (order : List ℕ) (picks : ℕ → ℕ)
    (s : SocialWorld) (h : s.running = false) :
    SocialWorld.step order picks s = s := by
  simp [SocialWorld.step, h]

theorem socialWorld_run_not_running (rnd : ℕ → List ℕ × (ℕ → ℕ)) (n : ℕ)
    (s : SocialWorld) (h : s.running = false) :
    SocialWorld.run rnd n s = s := by
  induction n generalizing rnd with
  | zero => rfl
  | succ k ih =>
    show SocialWorld.run _ k (SocialWorld.step (rnd 0).1 (rnd 0).2 s) = s
    rw [socialWorld_step_not_running _ _ s h]
    exact ih _

theorem socialWorld_step_G (order : List ℕ) (picks : ℕ → ℕ)
    (s : SocialWorld) : (SocialWorld.step order picks s).G = s.G := by
  simp only [SocialWorld.step]
  split
  · rfl
  · split <;> rfl

theorem socialWorld_run_G (rnd : ℕ → List ℕ × (ℕ → ℕ)) (n : ℕ)
    (s : SocialWorld) : (SocialWorld.run rnd n s).G = s.G := by
  induction n generalizing rnd s with
  | zero => rfl
  | succ k ih =>
    show (SocialWorld.run _ k (SocialWorld.step (rnd 0).1 (rnd 0).2 s)).G = s.G
    rw [ih, socialWorld_step_G]

theorem getD_all_red {ops : List Opinion}
    (hall : ∀ x ∈ ops, x = Opinion.RED) (k : ℕ) :
    ops.getD k Opinion.RED = Opinion.RED := by
  rcases Nat.lt_or_ge k ops.length with hk | hk
  · rw [List.getD_eq_getElem _ _ hk]
    exact hall _ (List.getElem_mem hk)
  · exact List.getD_eq_default _ _ hk

theorem voterStep_all_red {N : ℕ} {adj : ℕ → ℕ → Bool} {ops : List Opinion}
    (hall : ∀ x ∈ ops, x = Opinion.RED) (i pick : ℕ) :
    VoterAgent.step N adj ops i pick = ops := by
  simp only [VoterAgent.step, getD_all_red hall]
  simp

theorem scheduleStepSW_all_red {N : ℕ} {adj : ℕ → ℕ → Bool}
    {ops : List Opinion} (hall : ∀ x ∈ ops, x = Opinion.RED)
    (order : List ℕ) (picks : ℕ → ℕ) :
    scheduleStepSW N adj order picks ops = ops := by
  induction order with
  | nil => rfl
  | cons a rest ih =>
    simp only [scheduleStepSW, List.foldl_cons] at ih ⊢
    rw [voterStep_all_red hall a (picks a)]
    exact ih

theorem socialWorld_step_converged_red (order : List ℕ) (picks : ℕ → ℕ)
    (s : SocialWorld) (hrun : s.running = true)
    (hconv : converged s.opinions = true)
    (hall : ∀ x ∈ s.opinions, x = Opinion.RED) :
    SocialWorld.step order picks s =
      { s with
        running := false
        num_steps := s.num_steps + 1
        fracRedRows :=
          s.fracRedRows ++ [frac_with_opinion s.opinions Opinion.RED] } := by
  obtain ⟨na, pp, G, ops, ns, run, rows⟩ := s
  simp only at hrun hconv hall
  subst hrun
  simp [SocialWorld.step, hconv, scheduleStepSW_all_red hall]

theorem gini_sum_reflect (w : List ℚ) :
    2 * (∑ i in Finset.range w.length,
        w.getD i 0 * ((w.length : ℚ) - 1 - 2 * i)) =
    ∑ i in Finset.range w.length,
      (w.getD i 0 - w.getD (w.length - 1 - i) 0) *
        ((w.length : ℚ) - 1 - 2 * i) := by
  have h := Finset.sum_range_reflect
    (fun i => w.getD i 0 * ((w.length : ℚ) - 1 - 2 * i)) w.length
  rw [two_mul]
  nth_rewrite 2 [← h]
  rw [← Finset.sum_add_distrib]
  apply Finset.sum_congr rfl
  intro i hi
  have hi' : i < w.length := Finset.mem_range.mp hi
  have hcast : ((w.length - 1 - i : ℕ) : ℚ) = (w.length : ℚ) - 1 - i := by
    rw [Nat.sub_sub, Nat.cast_sub (by omega : 1 + i ≤ w.length)]
    push_cast
    ring
  rw [hcast]
  ring

theorem gini_sorted_reflect_nonpos {w : List ℚ}
    (hw : List.Sorted (fun a b : ℚ => a ≤ b) w) :
    ∑ i in Finset.range w.length,
      w.getD i 0 * ((w.length : ℚ) - 1 - 2 * i) ≤ 0 := by
  have h2 := gini_sum_reflect w
  have hterm : ∀ i ∈ Finset.range w.length,
      (w.getD i 0 - w.getD (w.length - 1 - i) 0) *
        ((w.length : ℚ) - 1 - 2 * i) ≤ 0 := by
    intro i hi
    have hi' : i < w.length := Finset.mem_range.mp hi
    have hcastlen : ((w.length - 1 : ℕ) : ℚ) = (w.length : ℚ) - 1 := by
      rw [Nat.cast_sub (by omega : 1 ≤ w.length)]
      norm_num
    rcases le_or_lt (2 * (i : ℚ)) ((w.length : ℚ) - 1) with hc | hc
    · have hcoef : 0 ≤ (w.length : ℚ) - 1 - 2 * i := by linarith
      have h2i : 2 * i ≤ w.length - 1 := by
        have : (2 * i : ℚ) ≤ ((w.length - 1 : ℕ) : ℚ) := by
          rw [hcastlen]; exact_mod_cast hc
        exact_mod_cast this
      have hij : i ≤ w.length - 1 - i := by omega
      have hj : w.length - 1 - i < w.length := by omega
      have hmono := sorted_getD_mono hw hij hj
      exact mul_nonpos_of_nonpos_of_nonneg (by linarith) hcoef
    · have hcoef : (w.length : ℚ) - 1 - 2 * i < 0 := by linarith
      have h2i : w.length - 1 < 2 * i := by
        have : ((w.length - 1 : ℕ) : ℚ) < (2 * i : ℚ) := by
          rw [hcastlen]; exact_mod_cast hc
        exact_mod_cast this
      have hij : w.length - 1 - i ≤ i := by omega
      have hmono := sorted_getD_mono hw hij hi'
      exact mul_nonpos_of_nonneg_of_nonpos (by linarith) (le_of_lt hcoef)
  have hsum := Finset.sum_nonpos hterm
  linarith

theorem gini_E_decomp (w : List ℚ) :
    2 * (∑ i in Finset.range w.length,
        w.getD i 0 * ((w.length : ℚ) - i)) =
    ((w.length : ℚ) + 1) * w.sum +
      ∑ i in Finset.range w.length,
        w.getD i 0 * ((w.length : ℚ) - 1 - 2 * i) := by
  rw [← sum_range_getD w, Finset.mul_sum, Finset.mul_sum,
    ← Finset.sum_add_distrib]
  apply Finset.sum_congr rfl
  intro i _
  ring

theorem gini_reflect_const {w : List ℚ} {c : ℚ} (hall : ∀ x ∈ w, x = c) :
    ∑ i in Finset.range w.length,
      w.getD i 0 * ((w.length : ℚ) - 1 - 2 * i) = 0 := by
  have h2 := gini_sum_reflect w
  have hterm : ∀ i ∈ Finset.range w.length,
      (w.getD i 0 - w.getD (w.length - 1 - i) 0) *
        ((w.length : ℚ) - 1 - 2 * i) = 0 := by
    intro i hi
    have hi' : i < w.length := Finset.mem_range.mp hi
    have hj : w.length - 1 - i < w.length := by omega
    rw [List.getD_eq_getElem _ _ hi', List.getD_eq_getElem _ _ hj,
      hall _ (List.getElem_mem hi'), hall _ (List.getElem_mem hj)]
    ring
  rw [Finset.sum_congr rfl hterm] at h2
  simp only [Finset.sum_const_zero] at h2
  linarith

theorem gini_E_lower {w : List ℚ} (hpos : ∀ x ∈ w, 0 < x) :
    w.sum ≤ ∑ i in Finset.range w.length,
      w.getD i 0 * ((w.length : ℚ) - i) := by
  rw [← sum_range_getD w]
  apply Finset.sum_le_sum
  intro i hi
  have hi' : i < w.length := Finset.mem_range.mp hi
  have hx : 0 < w.getD i 0 := by
    rw [List.getD_eq_getElem _ _ hi']
    exact hpos _ (List.getElem_mem hi')
  have hco : 1 ≤ (w.length : ℚ) - i := by
    have h1 : (i : ℚ) + 1 ≤ w.length := by exact_mod_cast hi'
    linarith
  have := mul_le_mul_of_nonneg_left hco hx.le
  linarith

theorem getD_set_self {α : Type*} (l : List α) (i : ℕ) (a d : α)
    (h : i < l.length) : (l.set i a).getD i d = a := by
  rw [List.getD_eq_getElem _ _ (by simpa using h)]
  exact List.getElem_set_self _

theorem gs2_has_connected : ∃ k, isConnected 2 (gs2 k) = true :=
  ⟨0, by decide⟩

theorem gsDelayed3_has_connected :
    ∃ k, isConnected 2 (gsDelayed 3 k) = true :=
  ⟨4, by decide⟩

/-- C10: once the opinion model's `running` flag is false, every subsequent
call to its `step()` returns immediately and leaves the entire model state
unchanged: the step counter is not incremented, no metrics row is collected,
and no agent's opinion is modified. -/
theorem c10_step_noop_when_stopped (order : List ℕ) (picks : ℕ → ℕ)
    (s : SocialWorld) (h : s.running = false) :
    SocialWorld.step order picks s = s :=
  socialWorld_step_not_running order picks s h

theorem c10_witness :
    swStopped.running = false ∧
      SocialWorld.step [0, 1] (fun _ => 0) swStopped = swStopped :=
  ⟨rfl, c10_step_noop_when_stopped [0, 1] (fun _ => 0) swStopped rfl⟩

/-- C9: every contact graph the opinion model accepts and binds at
construction satisfies the connectivity check (the constructor keeps the
first candidate passing `nx.is_connected`), and neither `step` nor `run`
ever re-generates or mutates the graph, so connectivity holds before any
step executes. -/
theorem c9_graph_connected_and_immutable (N : ℕ) (p : ℚ)
    (gs : ℕ → ℕ → ℕ → Bool) (h : ∃ k, isConnected N (gs k) = true)
    (draws : ℕ → Opinion) (order : List ℕ) (picks : ℕ → ℕ)
    (rnd : ℕ → List ℕ × (ℕ → ℕ)) (n : ℕ) (s : SocialWorld) :
    isConnected N (SocialWorld.init N p gs h draws).G = true ∧
    (SocialWorld.step order picks s).G = s.G ∧
    (SocialWorld.run rnd n s).G = s.G := by
  refine ⟨?_, socialWorld_step_G order picks s, socialWorld_run_G rnd n s⟩
  show isConnected N (gs (Nat.find h)) = true
  exact Nat.find_spec h

theorem c9_witness :
    isConnected 2
        (SocialWorld.init 2 (1 / 2) gs2 gs2_has_connected
          (fun _ => Opinion.RED)).G = true ∧
    (SocialWorld.step [0, 1] (fun _ => 0) swStopped).G = swStopped.G ∧
    (SocialWorld.run (fun _ => ([0, 1], fun _ => 0)) 3 swStopped).G =
      swStopped.G :=
  c9_graph_connected_and_immutable 2 (1 / 2) gs2 gs2_has_connected
    (fun _ => Opinion.RED) [0, 1] (fun _ => 0)
    (fun _ => ([0, 1], fun _ => 0)) 3 swStopped

/-- C5: in `give_money` the transfer amount is `max(wealth, 1)`: a
self-transfer leaves the initiator's wealth (indeed the whole vector)
unchanged, a transfer to a different agent moves exactly `max(wealth, 1)`,
and for initiator wealth strictly between 0 and 1 a transfer to a different
agent leaves the initiator strictly negative — no clamping occurs. -/
theorem c5_transfer_amount (ws : List ℚ) (i j : ℕ) (hi : i < ws.length)
    (hj : j < ws.length) :
    give_money ws i i = ws ∧
    (i ≠ j →
      (give_money ws i j).getD i 0 =
          ws.getD i 0 - max (ws.getD i 0) 1 ∧
        (give_money ws i j).getD j 0 =
          ws.getD j 0 + max (ws.getD i 0) 1) ∧
    (i ≠ j → 0 < ws.getD i 0 → ws.getD i 0 < 1 →
      (give_money ws i j).getD i 0 < 0) := by
  have hamounts : i ≠ j →
      (give_money ws i j).getD i 0 =
          ws.getD i 0 - max (ws.getD i 0) 1 ∧
        (give_money ws i j).getD j 0 =
          ws.getD j 0 + max (ws.getD i 0) 1 := by
    intro hij
    constructor
    · simp only [give_money]
      rw [getD_set_self _ i _ 0 (by simpa using hi),
        getD_set_ne ws (fun h => hij h.symm)]
    · simp only [give_money]
      rw [getD_set_ne _ hij, getD_set_self ws j _ 0 hj]
  refine ⟨?_, hamounts, ?_⟩
  · simp only [give_money]
    rw [List.set_set, getD_set_self ws i _ 0 hi,
      show ws.getD i 0 + max (ws.getD i 0) 1 - max (ws.getD i 0) 1 =
        ws.getD i 0 by ring]
    exact set_getD_self ws i 0 hi
  · intro hij h0 h1
    rw [(hamounts hij).1, max_eq_right (le_of_lt h1)]
    linarith

theorem c5_witness :
    give_money [(1 : ℚ) / 2, 3] 0 0 = [(1 : ℚ) / 2, 3] ∧
      (give_money [(1 : ℚ) / 2, 3] 0 1).getD 0 0 < 0 :=
  ⟨(c5_transfer_amount [(1 : ℚ) / 2, 3] 0 1 (by norm_num) (by norm_num)).1,
   (c5_transfer_amount [(1 : ℚ) / 2, 3] 0 1 (by norm_num)
      (by norm_num)).2.2 (by norm_num)
      (by norm_num [List.getD_cons_zero]) (by norm_num [List.getD_cons_zero])⟩

/-- C1 counterexample: a wealth model whose wealths sum to zero makes
`compute_gini` evaluate the division `… / (N*sum(w))` with denominator zero;
the computation fails (Python raises `ZeroDivisionError`, modelled `none`)
instead of returning a sentinel value. -/
theorem c1_counterexample :
    mZero.wealths.sum = 0 ∧ compute_gini mZero = none := by
  constructor
  · norm_num [mZero, MoneyModel.init]
  · norm_num [compute_gini, mZero, MoneyModel.init, List.insertionSort,
      List.orderedInsert]

/-- C1 (amended): for every wealth model whose agents' wealths sum to zero,
`compute_gini` performs the division with a zero denominator and fails with
`ZeroDivisionError` (modelled as `none`); there is no guard and no sentinel
value in the source. -/
theorem c1_zero_total_wealth_fails (m : MoneyModel)
    (h : m.wealths.sum = 0) : compute_gini m = none := by
  have hperm := List.perm_insertionSort (fun a b : ℚ => a ≤ b) m.wealths
  have hsum : (List.insertionSort (fun a b : ℚ => a ≤ b) m.wealths).sum = 0 :=
    by rw [hperm.sum_eq, h]
  simp [compute_gini, hsum]

theorem c1_witness : compute_gini mZero = none :=
  c1_zero_total_wealth_fails mZero (by norm_num [mZero, MoneyModel.init])

/-- C2 counterexample: a wealth model whose `running` flag is false still
executes the full body of `step()` inside `run`: one call to `run(1)`
increments the step counter even though `running` is false throughout,
contradicting the claim that no step bodies execute once `running` is
false. -/
theorem c2_counterexample :
    mmStopped.running = false ∧
      (MoneyModel.run (fun _ => ([0, 1, 2], fun _ => 0)) 1
          mmStopped).num_steps = mmStopped.num_steps + 1 :=
  ⟨rfl, moneyModel_run_num_steps (fun _ => ([0, 1, 2], fun _ => 0)) 1
    mmStopped⟩

/-- C2 (amended): `run(n)` calls `step()` exactly `n` times with no
early-stop check of `running`.  In the opinion model `step()` itself returns
immediately once `running` is false, so no further step bodies execute; in
the wealth model `step()` has no guard, so its body (counter increment,
metric collection, scheduler activation) executes on every one of the `n`
calls regardless of `running`. -/
theorem c2_run_semantics (m : MoneyModel) (s : SocialWorld)
    (rndm rnds : ℕ → List ℕ × (ℕ → ℕ)) (n k : ℕ)
    (hs : s.running = false) :
    (MoneyModel.run rndm n m).num_steps = m.num_steps + n ∧
      SocialWorld.run rnds k s = s :=
  ⟨moneyModel_run_num_steps rndm n m,
   socialWorld_run_not_running rnds k s hs⟩

theorem c2_witness :
    (MoneyModel.run (fun _ => ([0], fun _ => 0)) 2
        (MoneyModel.init 3 0 0)).num_steps =
      (MoneyModel.init 3 0 0).num_steps + 2 ∧
      SocialWorld.run (fun _ => ([0], fun _ => 0)) 2 swStopped = swStopped :=
  c2_run_semantics (MoneyModel.init 3 0 0) swStopped
    (fun _ => ([0], fun _ => 0)) (fun _ => ([0], fun _ => 0)) 2 2 rfl

/-- C3: in the opinion model the pre-step unanimity check runs before the
scheduler: whenever every agent's opinion equals the first agent's opinion
(in fixed enumeration order), `step` sets `running` to false, and further
stepping of this run halts.  For the two-agent model whose agents are both
forced to the same initial opinion, `running` becomes false at the very
first pre-step check and no opinion is ever mutated: after the first step
and after any longer run the opinion vector equals the initial one. -/
theorem c3_two_agent_consensus (p : ℚ) (gs : ℕ → ℕ → ℕ → Bool)
    (h : ∃ k, isConnected 2 (gs k) = true) (order : List ℕ)
    (picks : ℕ → ℕ) (rnd : ℕ → List ℕ × (ℕ → ℕ)) (n : ℕ)
    (s : SocialWorld) (hrun : s.running = true)
    (hconv : converged s.opinions = true) :
    (SocialWorld.step order picks s).running = false ∧
    (SocialWorld.step order picks
        (SocialWorld.init 2 p gs h (fun _ => Opinion.RED))).running = false ∧
    (SocialWorld.step order picks
        (SocialWorld.init 2 p gs h (fun _ => Opinion.RED))).opinions =
      (SocialWorld.init 2 p gs h (fun _ => Opinion.RED)).opinions ∧
    (SocialWorld.run rnd n
        (SocialWorld.init 2 p gs h (fun _ => Opinion.RED))).opinions =
      (SocialWorld.init 2 p gs h (fun _ => Opinion.RED)).opinions := by
  have pre : ∀ (ord : List ℕ) (pk : ℕ → ℕ) (t : SocialWorld),
      t.running = true → converged t.opinions = true →
      (SocialWorld.step ord pk t).running = false := by
    intro ord pk t hr hc
    simp [SocialWorld.step, hr, hc]
  set s0 := SocialWorld.init 2 p gs h (fun _ => Opinion.RED) with hs0
  have hops : s0.opinions = [Opinion.RED, Opinion.RED] := rfl
  have hs0run : s0.running = true := rfl
  have hs0conv : converged s0.opinions = true := by rw [hops]; rfl
  have hall : ∀ x ∈ s0.opinions, x = Opinion.RED := by
    rw [hops]
    intro x hx
    simp only [List.mem_cons, List.not_mem_nil, or_false] at hx
    rcases hx with h1 | h1 <;> exact h1
  have hstep : ∀ (ord : List ℕ) (pk : ℕ → ℕ),
      SocialWorld.step ord pk s0 =
        { s0 with
          running := false
          num_steps := s0.num_steps + 1
          fracRedRows := s0.fracRedRows ++
            [frac_with_opinion s0.opinions Opinion.RED] } :=
    fun ord pk =>
      socialWorld_step_converged_red ord pk s0 hs0run hs0conv hall
  refine ⟨pre order picks s hrun hconv, ?_, ?_, ?_⟩
  · rw [hstep order picks]
  · rw [hstep order picks]
  · cases n with
    | zero => rfl
    | succ k =>
      show (SocialWorld.run _ k
        (SocialWorld.step (rnd 0).1 (rnd 0).2 s0)).opinions = s0.opinions
      rw [hstep (rnd 0).1 (rnd 0).2,
        socialWorld_run_not_running _ k _ rfl]

theorem c3_witness :
    (SocialWorld.step [0, 1] (fun _ => 0)
        (SocialWorld.init 2 (1 / 2) gs2 gs2_has_connected
          (fun _ => Opinion.RED))).running = false ∧
    (SocialWorld.step [0, 1] (fun _ => 0)
        (SocialWorld.init 2 (1 / 2) gs2 gs2_has_connected
          (fun _ => Opinion.RED))).running = false ∧
    (SocialWorld.step [0, 1] (fun _ => 0)
        (SocialWorld.init 2 (1 / 2) gs2 gs2_has_connected
          (fun _ => Opinion.RED))).opinions =
      (SocialWorld.init 2 (1 / 2) gs2 gs2_has_connected
        (fun _ => Opinion.RED)).opinions ∧
    (SocialWorld.run (fun _ => ([0, 1], fun _ => 0)) 4
        (SocialWorld.init 2 (1 / 2) gs2 gs2_has_connected
          (fun _ => Opinion.RED))).opinions =
      (SocialWorld.init 2 (1 / 2) gs2 gs2_has_connected
        (fun _ => Opinion.RED)).opinions :=
  c3_two_agent_consensus (1 / 2) gs2 gs2_has_connected [0, 1] (fun _ => 0)
    (fun _ => ([0, 1], fun _ => 0)) 4
    (SocialWorld.init 2 (1 / 2) gs2 gs2_has_connected (fun _ => Opinion.RED))
    rfl rfl

/-- C4: a single `give_money` transfer conserves the total wealth exactly,
for every wealth vector, every initiator and every partner (self-pick
included); consequently a wealth model with `int_rate = 0` and `ubi = 0`
run for exactly one tick leaves the total wealth unchanged for every
scheduler permutation and every choice of trade partners. -/
theorem c4_transfer_conserves_total (ws : List ℚ) (i j : ℕ)
    (hi : i < ws.length) (hj : j < ws.length) (m : MoneyModel)
    (order : List ℕ) (picks : ℕ → ℕ) (hr : m.int_rate = 0)
    (hu : m.ubi = 0) (hord : ∀ a ∈ order, a < m.wealths.length)
    (hpk : ∀ a ∈ order, picks a < m.wealths.length) :
    (give_money ws i j).sum = ws.sum ∧
      (MoneyModel.run (fun _ => (order, picks)) 1 m).wealths.sum =
        m.wealths.sum := by
  refine ⟨sum_give_money ws hi hj, ?_⟩
  show (MoneyModel.step order picks m).wealths.sum = m.wealths.sum
  rw [moneyModel_step_wealths, hr, hu]
  exact sum_scheduleStepMM_zero order picks m.wealths hord hpk

theorem c4_witness :
    (give_money [(2 : ℚ), 3] 0 1).sum = ([(2 : ℚ), 3]).sum ∧
      (MoneyModel.run (fun _ => ([0, 1, 2, 3, 4], fun a => a)) 1
          (MoneyModel.init 5 0 0)).wealths.sum =
        (MoneyModel.init 5 0 0).wealths.sum :=
  c4_transfer_conserves_total [(2 : ℚ), 3] 0 1 (by norm_num) (by norm_num)
    (MoneyModel.init 5 0 0) [0, 1, 2, 3, 4] (fun a => a) rfl rfl
    (by decide) (by decide)

/-- C6 counterexample: two opinion models built with identical construction
arguments (same `N`, same `p`, same candidate-graph stream) but different
ambient global numpy draws end up in different states — the model draws its
initial opinions from the ambient global generator, which no model-level
seed controls, so same-configuration runs are not reproducible. -/
theorem c6_counterexample :
    (SocialWorld.init 2 (1 / 2) gs2 gs2_has_connected
        (fun _ => Opinion.RED)).opinions ≠
      (SocialWorld.init 2 (1 / 2) gs2 gs2_has_connected drawsRB).opinions :=
  by decide

/-- C6 (amended): the opinion model's randomness does not flow from one
generator threaded through the model: `VoterAgent.__init__` draws each
initial opinion from the ambient global numpy stream (`np.random.choice`),
so the constructed opinion vector is exactly the ambient draw sequence over
agent ids; the model's own construction arguments (`N`, `p`) do not
determine it, and a fixed model seed cannot reproduce it. -/
theorem c6_opinions_are_ambient_draws (N : ℕ) (p : ℚ)
    (gs : ℕ → ℕ → ℕ → Bool) (h : ∃ k, isConnected N (gs k) = true)
    (draws : ℕ → Opinion) :
    (SocialWorld.init N p gs h draws).opinions =
      (List.range N).map draws := by
  simp [SocialWorld.init, VoterAgent.initOpinion]

theorem c6_witness :
    (SocialWorld.init 2 (1 / 2) gs2 gs2_has_connected drawsRB).opinions =
      (List.range 2).map drawsRB :=
  c6_opinions_are_ambient_draws 2 (1 / 2) gs2 gs2_has_connected drawsRB

/-- C7 counterexample: the connected-graph rejection sampling in
`SocialWorld.__init__` is not bounded by any maximum attempt count — for
every candidate bound `B` there is a candidate stream on which the loop
performs more than `B` attempts and still returns normally (no timeout is
ever signalled). -/
theorem c7_counterexample :
    ¬ ∃ B : ℕ, ∀ (gs : ℕ → ℕ → ℕ → Bool)
      (h : ∃ k, isConnected 2 (gs k) = true), Nat.find h ≤ B := by
  rintro ⟨B, hB⟩
  have hadj : gsDelayed B (B + 1) = adj2 := by
    simp only [gsDelayed]
    rw [if_neg (by omega)]
  have hex : ∃ k, isConnected 2 (gsDelayed B k) = true :=
    ⟨B + 1, by rw [hadj]; decide⟩
  have hle : Nat.find hex ≤ B := hB (gsDelayed B) hex
  have hspec := Nat.find_spec hex
  have hfalse : gsDelayed B (Nat.find hex) = fun _ _ => false := by
    simp only [gsDelayed]
    rw [if_pos hle]
  rw [hfalse] at hspec
  exact absurd hspec (by decide)

/-- C7 (amended): the rejection-sampling loop is unbounded: no maximum
attempt count is configured and no timeout is ever signalled; the
constructor simply keeps drawing until the first connected candidate,
however late it appears.  On a stream whose first `B + 1` candidates are
disconnected, construction succeeds after exactly `B + 2` attempts
(accepted index `B + 1`) for every `B`. -/
theorem c7_rejection_sampling_unbounded (B : ℕ) (p : ℚ)
    (draws : ℕ → Opinion)
    (h : ∃ k, isConnected 2 (gsDelayed B k) = true) :
    Nat.find h = B + 1 ∧
      (SocialWorld.init 2 p (gsDelayed B) h draws).G = adj2 := by
  have hfind : Nat.find h = B + 1 := by
    rw [Nat.find_eq_iff]
    constructor
    · have hadj : gsDelayed B (B + 1) = adj2 := by
        simp only [gsDelayed]
        rw [if_neg (by omega)]
      rw [hadj]
      decide
    · intro n hn
      have hfalse : gsDelayed B n = fun _ _ => false := by
        simp only [gsDelayed]
        rw [if_pos (by omega)]
      rw [hfalse]
      decide
  refine ⟨hfind, ?_⟩
  show gsDelayed B (Nat.find h) = adj2
  rw [hfind]
  simp only [gsDelayed]
  rw [if_neg (by omega)]

theorem c7_witness :
    Nat.find gsDelayed3_has_connected = 4 ∧
      (SocialWorld.init 2 (1 / 2) (gsDelayed 3) gsDelayed3_has_connected
        (fun _ => Opinion.RED)).G = adj2 :=
  c7_rejection_sampling_unbounded 3 (1 / 2) (fun _ => Opinion.RED)
    gsDelayed3_has_connected

/-- C8: for every wealth-model state with `N = num_agents = `number of
wealths, `N > 1` and all wealths positive, `compute_gini` succeeds and its
value lies in `[0, 1)`; when additionally all wealths are equal the value is
exactly `0`. -/
theorem c8_gini_range (m : MoneyModel)
    (hN : m.num_agents = m.wealths.length) (h1 : 1 < m.num_agents)
    (hpos : ∀ x ∈ m.wealths, 0 < x) :
    ∃ g, compute_gini m = some g ∧ 0 ≤ g ∧ g < 1 ∧
      ((∀ x ∈ m.wealths, ∀ y ∈ m.wealths, x = y) → g = 0) := by
  set w := List.insertionSort (fun a b : ℚ => a ≤ b) m.wealths with hw
  have hperm : w.Perm m.wealths :=
    List.perm_insertionSort (fun a b : ℚ => a ≤ b) m.wealths
  have hsorted : List.Sorted (fun a b : ℚ => a ≤ b) w :=
    List.sorted_insertionSort (fun a b : ℚ => a ≤ b) m.wealths
  have hlen : w.length = m.wealths.length :=
    List.length_insertionSort (fun a b : ℚ => a ≤ b) m.wealths
  have hposw : ∀ x ∈ w, 0 < x := fun x hx => hpos x (hperm.mem_iff.mp hx)
  have hne : w ≠ [] := by
    intro hnil
    rw [hnil] at hlen
    simp at hlen
    omega
  have hSpos : 0 < w.sum := List.sum_pos w hposw hne
  have hNpos : 0 < m.num_agents := by omega
  have hNQ : (0 : ℚ) < (m.num_agents : ℚ) := by exact_mod_cast hNpos
  have hnw : m.num_agents = w.length := by omega
  have hNQw : (m.num_agents : ℚ) = (w.length : ℚ) := by exact_mod_cast hnw
  have hnQ : (0 : ℚ) < (w.length : ℚ) := by rw [← hNQw]; exact hNQ
  have hden : (m.num_agents : ℚ) * w.sum ≠ 0 :=
    ne_of_gt (mul_pos hNQ hSpos)
  have hgini : compute_gini m = some (1 + 1 / (m.num_agents : ℚ) -
      2 * ((∑ i in Finset.range w.length,
          w.getD i 0 * ((m.num_agents : ℚ) - (i : ℚ))) /
        ((m.num_agents : ℚ) * w.sum))) := by
    simp only [compute_gini]
    rw [← hw, if_neg hden]
  have hgini2 : compute_gini m = some (1 + 1 / (w.length : ℚ) -
      2 * ((∑ i in Finset.range w.length,
          w.getD i 0 * ((w.length : ℚ) - (i : ℚ))) /
        ((w.length : ℚ) * w.sum))) := by
    rw [hgini, hNQw]
  have hkey2 : 2 * (∑ i in Finset.range w.length,
      w.getD i 0 * ((w.length : ℚ) - (i : ℚ))) ≤
      ((w.length : ℚ) + 1) * w.sum := by
    have hd := gini_E_decomp w
    have hnp := gini_sorted_reflect_nonpos hsorted
    linarith
  have hlow : w.sum ≤ ∑ i in Finset.range w.length,
      w.getD i 0 * ((w.length : ℚ) - (i : ℚ)) := gini_E_lower hposw
  have hDpos : 0 < (w.length : ℚ) * w.sum := mul_pos hnQ hSpos
  refine ⟨_, hgini2, ?_, ?_, ?_⟩
  · have hfrac_le : 2 * ((∑ i in Finset.range w.length,
        w.getD i 0 * ((w.length : ℚ) - (i : ℚ))) /
          ((w.length : ℚ) * w.sum)) ≤ 1 + 1 / (w.length : ℚ) := by
      rw [← mul_div_assoc, div_le_iff₀ hDpos]
      have hexp : (1 + 1 / (w.length : ℚ)) * ((w.length : ℚ) * w.sum) =
          ((w.length : ℚ) + 1) * w.sum := by
        field_simp
        ring
      rw [hexp]
      exact hkey2
    linarith
  · have hfrac_gt : 1 / (w.length : ℚ) < 2 * ((∑ i in Finset.range w.length,
        w.getD i 0 * ((w.length : ℚ) - (i : ℚ))) /
          ((w.length : ℚ) * w.sum)) := by
      rw [← mul_div_assoc, div_lt_div_iff₀ hnQ hDpos]
      nlinarith
    linarith
  · intro heq
    have h0w : 0 < w.length := by omega
    have hcmem : w.getD 0 0 ∈ w := by
      rw [List.getD_eq_getElem _ _ h0w]
      exact List.getElem_mem _
    have hallc : ∀ x ∈ w, x = w.getD 0 0 := fun x hx =>
      heq x (hperm.mem_iff.mp hx) _ (hperm.mem_iff.mp hcmem)
    have hT0 := gini_reflect_const hallc
    have hd := gini_E_decomp w
    have h2E : 2 * (∑ i in Finset.range w.length,
        w.getD i 0 * ((w.length : ℚ) - (i : ℚ))) =
        ((w.length : ℚ) + 1) * w.sum := by
      rw [hd, hT0, add_zero]
    have hX : 2 * ((∑ i in Finset.range w.length,
        w.getD i 0 * ((w.length : ℚ) - (i : ℚ))) /
          ((w.length : ℚ) * w.sum)) = 1 + 1 / (w.length : ℚ) := by
      rw [← mul_div_assoc, h2E]
      field_simp
      ring
    linarith

theorem c8_witness :
    ∃ g, compute_gini (MoneyModel.init 2 0 0) = some g ∧ 0 ≤ g ∧ g < 1 ∧
      ((∀ x ∈ (MoneyModel.init 2 0 0).wealths,
          ∀ y ∈ (MoneyModel.init 2 0 0).wealths, x = y) → g = 0) :=
  c8_gini_range (MoneyModel.init 2 0 0) rfl (by decide)
    (by
      intro x hx
      have hx2 : x ∈ List.replicate 2 (1 : ℚ) := hx
      rw [List.eq_of_mem_replicate hx2]
      norm_num)
